import Mathlib

/-!
Verification development for the treetextconf configuration parser.

The embedding models the iterative parser (`iterParse` / `ParseConfig`
together with `nextLine`, `checkHeight`, `checkSize`): logical lines
are the results of successive `bufio.ReadLine` calls (terminator bytes
stripped), the tree under construction is represented by the stack of
currently-open frames (bottom frame = root), where a frame's completed
node is appended to its parent's child list when the frame is popped —
exactly the shape the Go code maintains through pointer mutation, since
a node's child list is only ever extended while that node is on top of
the stack.  Bytes are modelled as `Char` values (the sources operate on
single bytes; every byte value is representable).
-/

/-- A configuration tree node: a name and an ordered list of children
(Go `Config`). -/
inductive Config where
  | mk (name : List Char) (value : List Config)

def Config.name : Config → List Char
  | Config.mk n _ => n

def Config.value : Config → List Config
  | Config.mk _ v => v

/-- An open node on the stack: its name and the children appended so far. -/
structure Frame where
  name : List Char
  value : List Config

def Frame.toConfig (f : Frame) : Config := Config.mk f.name f.value

/-- Go slice expression on a byte list (the code writes line[a:b]). -/
def goSlice (line : List Char) (a b : Nat) : List Char := (line.drop a).take (b - a)

/-- Byte at index `i` (only queried in range by the classifier). -/
def lineAt (line : List Char) (i : Nat) : Char := line.getD i (Char.ofNat 0)

/-- Index of the first byte that is not a space or tab (`iterParse`'s
leading-whitespace loop); equals the length when all bytes are whitespace. -/
def wsIdx : List Char → Nat
  | [] => 0
  | c :: rest => if c ≠ ' ' ∧ c ≠ '\t' then 0 else wsIdx rest + 1

/-- Whether the first non-whitespace byte is the content-start marker. -/
def isEscaped (line : List Char) : Bool := lineAt line (wsIdx line) == '\''

/-- Start of content: just past the content-start marker when present. -/
def contentStart (line : List Char) : Nat :=
  wsIdx line + (if isEscaped line then 1 else 0)

/-- The line's final byte (`endToken` in `iterParse`). -/
def endTokenC (line : List Char) : Char := lineAt line (line.length - 1)

/-- End of content after stripping a trailing terminator or content-end
marker (`iterParse`'s `end` computation). -/
def contentEnd (line : List Char) : Nat :=
  if endTokenC line = ':' then line.length - 1
  else if endTokenC line = '\'' then
    (if contentStart line ≠ line.length then line.length - 1 else line.length)
  else line.length

/-- One step of the name/value split scan (`iterParse`'s
`foundNVPairMaybe` / `nvPairNameEnd` loop); the first argument counts the
remaining iterations `end - i`. -/
def nvLoop (line : List Char) : Nat → Nat → Bool → Option Nat → Option Nat
  | 0, _, _, acc => acc
  | fuel + 1, i, maybe, acc =>
    if lineAt line i = ':' then nvLoop line fuel (i + 1) true acc
    else if maybe ∧ lineAt line i = ' ' then nvLoop line fuel (i + 1) true (some (i - 1))
    else nvLoop line fuel (i + 1) false acc

/-- The split-point scan over `[start, e)` (result `nvPairNameEnd`). -/
def nvScan (line : List Char) (start e : Nat) : Option Nat :=
  nvLoop line (e - start) start false none

/-- Classification outcome of one logical line. -/
inductive LineClass where
  | blank
  | comment
  | close
  | openScope (name : List Char)
  | pair (name value : List Char)
  | leaf (name : List Char)
deriving DecidableEq

/-- Per-line classification, mirroring the body of `iterParse`'s loop:
whitespace skip, blank skip, content-marker handling, comment skip, end
token stripping, split scan, and the final `switch` on the end token. -/
def classifyLine (line : List Char) : LineClass :=
  if wsIdx line = line.length then LineClass.blank
  else if isEscaped line = false ∧ lineAt line (wsIdx line) = '#' then LineClass.comment
  else if endTokenC line = ':' then
    if contentStart line = contentEnd line ∧ isEscaped line = false then LineClass.close
    else LineClass.openScope (goSlice line (contentStart line) (contentEnd line))
  else
    match nvScan line (contentStart line) (contentEnd line) with
    | some sp => LineClass.pair (goSlice line (contentStart line) sp)
                   (goSlice line (sp + 2) (contentEnd line))
    | none => LineClass.leaf (goSlice line (contentStart line) (contentEnd line))

/-- Head-is-carriage-return test used by the line splitter. -/
def headIsCR : List Char → Bool
  | c :: _ => c == '\r'
  | [] => false

/-- Reverse an accumulated line, dropping one trailing CR (the byte read
just before the newline), as `bufio.ReadLine` strips a CRLF pair. -/
def stripCRrev (acc : List Char) : List Char :=
  if headIsCR acc then acc.tail.reverse else acc.reverse

/-- Accumulate bytes of the current logical line (reversed in `acc`);
a newline emits the line (CR stripped), end of input emits the pending
bytes verbatim.  Mirrors repeated `bufio.ReadLine` calls. -/
def linesAux : List Char → List Char → List (List Char)
  | [], acc => [acc.reverse]
  | c :: rest, acc =>
    if c = '\n' then
      stripCRrev acc :: (if rest.isEmpty then [] else linesAux rest [])
    else linesAux rest (c :: acc)

/-- The logical lines of a byte stream, as delivered by `bufio.ReadLine`. -/
def splitLines (s : List Char) : List (List Char) :=
  if s.isEmpty then [] else linesAux s []

/-- Bytes consumed by line terminators: one per newline, two when the
newline is preceded by a carriage return.  Parallel to `linesAux`. -/
def eolAux : List Char → List Char → Nat
  | [], _ => 0
  | c :: rest, acc =>
    if c = '\n' then
      (if headIsCR acc then 2 else 1) + (if rest.isEmpty then 0 else eolAux rest [])
    else eolAux rest (c :: acc)

/-- Total line-terminator bytes of a stream. -/
def eolBytes (s : List Char) : Nat := if s.isEmpty then 0 else eolAux s []

/-- Sum of the byte lengths of a list of logical lines. -/
def sumLens : List (List Char) → Nat
  | [] => 0
  | l :: ls => l.length + sumLens ls

/-- Parse-time errors (`ConfigError` values), carrying the recorded line
number and, for limit violations, the configured limit. -/
inductive Err where
  | heightExceeded (line limit : Nat)
  | sizeExceeded (line limit : Nat)
  | tooMany (line : Nat)
  | unterminated (line : Nat)
deriving DecidableEq

/-- Limits fixed at construction (`heightLimit` / `sizeLimit` fields;
`none` models the `-1` sentinel, and `HeightLimit` / `SizeLimit` only
install strictly positive values). -/
structure Opts where
  heightLimit : Option Nat
  sizeLimit : Option Nat

/-- Go `checkHeight`: fails only when the height strictly exceeds the
configured limit. -/
def checkHeight (opts : Opts) (height lineno : Nat) : Option Err :=
  match opts.heightLimit with
  | some lim => if lim < height then some (Err.heightExceeded lineno lim) else none
  | none => none

/-- Go `checkSize`: fails when the cumulative size reaches the limit. -/
def checkSize (opts : Opts) (size lineno : Nat) : Option Err :=
  match opts.sizeLimit with
  | some lim => if lim ≤ size then some (Err.sizeExceeded lineno lim) else none
  | none => none

/-- Mutable parser state: open-frame stack (head = top, last = root),
cumulative byte count `size`, and consumed-line count `lineno`. -/
structure PState where
  stack : List Frame
  size : Nat
  lineno : Nat

/-- Result of a parse: the root tree, the final parser state, and the
error, if any (Go returns the root pointer plus the error). -/
structure PResult where
  tree : Config
  pstate : PState
  err : Option Err

/-- Append a finished child to the node currently on top of the stack
(Go `c.addValue`). -/
def appendTop (c : Config) : List Frame → List Frame
  | [] => []
  | f :: fs => Frame.mk f.name (f.value ++ [c]) :: fs

/-- Pop: the completed top node becomes the last child of the frame
below it (in Go the child pointer was installed at push time and the
node's child list has just become final). -/
def popFrame (f g : Frame) : Frame := Frame.mk g.name (g.value ++ [f.toConfig])

/-- Fold a completed node into the frame above it. -/
def stepFn (c : Config) (g : Frame) : Config := Config.mk g.name (g.value ++ [c])

/-- The tree reachable from the root given the current stack: every
still-open frame sits as the last child of the frame below it. -/
def collapseStack : List Frame → Config
  | [] => Config.mk [] []
  | f :: fs => fs.foldl stepFn f.toConfig

/-- The main loop of `iterParse` over the logical lines: consume a line
(`nextLine` adds its length to `size`, runs the size check before
incrementing `lineno`), classify it, and update the stack; direct
returns mirror the loop's `break out` and error paths, and the
end-of-input cases mirror the code after the loop. -/
def run (opts : Opts) : List (List Char) → PState → PResult
  | [], st =>
    if 2 ≤ st.stack.length then
      PResult.mk (collapseStack st.stack) st (some (Err.unterminated st.lineno))
    else PResult.mk (collapseStack st.stack) st none
  | line :: rest, st =>
    match checkSize opts (st.size + line.length) st.lineno with
    | some e =>
      PResult.mk (collapseStack st.stack)
        (PState.mk st.stack (st.size + line.length) st.lineno) (some e)
    | none =>
      match classifyLine line with
      | LineClass.blank =>
        run opts rest (PState.mk st.stack (st.size + line.length) (st.lineno + 1))
      | LineClass.comment =>
        run opts rest (PState.mk st.stack (st.size + line.length) (st.lineno + 1))
      | LineClass.close =>
        match st.stack with
        | [] =>
          PResult.mk (collapseStack [])
            (PState.mk [] (st.size + line.length) (st.lineno + 1))
            (some (Err.tooMany (st.lineno + 1)))
        | [f] =>
          PResult.mk f.toConfig
            (PState.mk [] (st.size + line.length) (st.lineno + 1))
            (some (Err.tooMany (st.lineno + 1)))
        | f :: g :: gs =>
          run opts rest
            (PState.mk (popFrame f g :: gs) (st.size + line.length) (st.lineno + 1))
      | LineClass.openScope n =>
        match checkHeight opts ((Frame.mk n [] :: st.stack).length - 1) (st.lineno + 1) with
        | some e =>
          PResult.mk (collapseStack (Frame.mk n [] :: st.stack))
            (PState.mk (Frame.mk n [] :: st.stack) (st.size + line.length) (st.lineno + 1))
            (some e)
        | none =>
          run opts rest
            (PState.mk (Frame.mk n [] :: st.stack) (st.size + line.length) (st.lineno + 1))
      | LineClass.pair n v =>
        run opts rest
          (PState.mk (appendTop (Config.mk n [Config.mk v []]) st.stack)
            (st.size + line.length) (st.lineno + 1))
      | LineClass.leaf n =>
        run opts rest
          (PState.mk (appendTop (Config.mk n []) st.stack)
            (st.size + line.length) (st.lineno + 1))

/-- The synthetic root frame (`name: "__root__"`). -/
def rootFrame : Frame := Frame.mk (String.toList "__root__") []

/-- Run the parser on a ready-made list of logical lines. -/
def parseLines (opts : Opts) (ls : List (List Char)) : PResult :=
  run opts ls (PState.mk [rootFrame] 0 0)

/-- Go `ParseConfig` on a raw byte stream. -/
def ParseConfig (opts : Opts) (s : List Char) : PResult :=
  parseLines opts (splitLines s)

mutual
/-- Height of a tree: number of nodes on a longest root-to-leaf chain. -/
def heightC : Config → Nat
  | Config.mk _ cs => 1 + heightL cs
/-- Greatest height among a list of trees. -/
def heightL : List Config → Nat
  | [] => 0
  | c :: cs => Nat.max (heightC c) (heightL cs)
end

/-- Whether a parse outcome is a depth-limit violation. -/
def isHeightErr : Option Err → Bool
  | some (Err.heightExceeded _ _) => true
  | _ => false

/-- Greatest open-stack length reached when parsing these lines with no
limits configured, starting from stack length `d`; line classification
and the stop conditions are exactly those of `run`. -/
def nestLen : List (List Char) → Nat → Nat
  | [], d => d
  | line :: rest, d =>
    Nat.max d
      (match classifyLine line with
        | LineClass.close => if d ≤ 1 then d else nestLen rest (d - 1)
        | LineClass.openScope _ => nestLen rest (d + 1)
        | _ => nestLen rest d)

/-- The split-scan flag state when the scan is about to read index `i`:
live exactly when the previous byte is a colon, or is a space with the
flag already live there. -/
def liveB (line : List Char) (start : Nat) : Nat → Bool
  | 0 => false
  | i + 1 =>
    if i < start then false
    else if lineAt line i = ':' then true
    else if lineAt line i = ' ' then liveB line start i
    else false

/-- Declarative reading of the split scan: the last index `k` below `e`
holding a space while the flag is live yields split point `k - 1`. -/
def lastRec (line : List Char) (start : Nat) : Nat → Option Nat
  | 0 => none
  | k + 1 =>
    if k < start then none
    else if lineAt line k = ' ' ∧ liveB line start k = true then some (k - 1)
    else lastRec line start k

/-- Modelled from the spec claim wording only (not from the source):
the position of the last colon immediately followed by a space inside
`[start, e)`; used to compare the claim's split rule with the code's. -/
def lastColonSpace (line : List Char) (start : Nat) : Nat → Option Nat
  | 0 => none
  | 1 => none
  | e + 2 =>
    if start ≤ e ∧ lineAt line e = ':' ∧ lineAt line (e + 1) = ' ' then some e
    else lastColonSpace line start (e + 1)

/-- Name of the bottom (root) frame of a stack. -/
def frLastName : List Frame → List Char
  | [] => []
  | [f] => f.name
  | _ :: g :: gs => frLastName (g :: gs)

example : classifyLine (String.toList "test: 123") =
    LineClass.pair (String.toList "test") (String.toList "123") := by decide

example : classifyLine (String.toList "test: 123:") =
    LineClass.openScope (String.toList "test: 123") := by decide

example : classifyLine (String.toList "a:  b") =
    LineClass.pair (String.toList "a:") (String.toList "b") := by decide

example : classifyLine (String.toList "  :") = LineClass.close := by decide

example : classifyLine (String.toList "':") =
    LineClass.openScope [] := by decide

example : classifyLine (String.toList "x:'") =
    LineClass.leaf (String.toList "x:") := by decide

example : classifyLine (String.toList "'# not a comment") =
    LineClass.leaf (String.toList "# not a comment") := by decide

example : classifyLine (String.toList "# comment") = LineClass.comment := by decide

example : classifyLine (String.toList "''") = LineClass.leaf [] := by decide

example : classifyLine (String.toList "     '") = LineClass.leaf [] := by decide

example : splitLines (String.toList "a\r\nb\nc") =
    [String.toList "a", String.toList "b", String.toList "c"] := by decide

example : splitLines (String.toList "a\n") = [String.toList "a"] := by decide

example : splitLines [] = [] := by decide

example : (ParseConfig (Opts.mk none none) (String.toList "test: 123")).err = none := by decide

example : eolBytes (String.toList "a\r\nb\n") = 3 := by decide

theorem liveB_start (line : List Char) (start : Nat) : liveB line start start = false := by
  cases start with
  | zero => rfl
  | succ k => simp [liveB]

theorem lastRec_start (line : List Char) (start : Nat) : lastRec line start start = none := by
  cases start with
  | zero => rfl
  | succ k => simp [lastRec]

theorem lastRec_of_le (line : List Char) (start : Nat) :
    ∀ e, e ≤ start → lastRec line start e = none := by
  intro e
  induction e with
  | zero => intro _; rfl
  | succ k ih =>
    intro hk
    have hk' : k < start := hk
    simp [lastRec, hk']

theorem nvLoop_eq_lastRec (line : List Char) (start : Nat) :
    ∀ fuel i maybe acc, start ≤ i → maybe = liveB line start i →
      acc = lastRec line start i →
      nvLoop line fuel i maybe acc = lastRec line start (i + fuel) := by
  intro fuel
  induction fuel with
  | zero => intro i maybe acc _ _ hacc; simpa [nvLoop] using hacc
  | succ fl ih =>
    intro i maybe acc hsi hmaybe hacc
    have hins : ¬ i < start := Nat.not_lt.mpr hsi
    rw [show i + (fl + 1) = (i + 1) + fl by omega]
    by_cases hcol : lineAt line i = ':'
    · rw [nvLoop, if_pos hcol]
      apply ih (i + 1) true acc (Nat.le_succ_of_le hsi)
      · simp [liveB, hins, hcol]
      · have : lineAt line i ≠ ' ' := by rw [hcol]; decide
        simp [lastRec, hins, this, hacc]
    · by_cases hsp : maybe = true ∧ lineAt line i = ' '
      · rw [nvLoop, if_neg hcol, if_pos (by exact ⟨by simp [hsp.1], hsp.2⟩)]
        apply ih (i + 1) true (some (i - 1)) (Nat.le_succ_of_le hsi)
        · simp [liveB, hins, hcol, hsp.2, ← hmaybe, hsp.1]
        · simp [lastRec, hins, hsp.2, ← hmaybe, hsp.1]
      · have hcond : ¬ (maybe ∧ lineAt line i = ' ') := by
          intro hc; exact hsp ⟨by simp [hc.1], hc.2⟩
        rw [nvLoop, if_neg hcol, if_neg hcond]
        apply ih (i + 1) false acc (Nat.le_succ_of_le hsi)
        · by_cases hws : lineAt line i = ' '
          · have hm : maybe = false := by
              cases maybe with
              | true => exact absurd ⟨rfl, hws⟩ hsp
              | false => rfl
            simp [liveB, hins, hcol, hws, ← hmaybe, hm]
          · simp [liveB, hins, hcol, hws]
        · by_cases hws : lineAt line i = ' '
          · have hm : maybe = false := by
              cases maybe with
              | true => exact absurd ⟨rfl, hws⟩ hsp
              | false => rfl
            have : liveB line start i = false := by rw [← hmaybe, hm]
            simp [lastRec, hins, hws, this, hacc]
          · simp [lastRec, hins, hws, hacc]

theorem nvScan_eq_lastRec (line : List Char) (start e : Nat) :
    nvScan line start e = lastRec line start e := by
  by_cases hse : start ≤ e
  · have := nvLoop_eq_lastRec line start (e - start) start false none (Nat.le_refl start)
      (by rw [liveB_start]) (by rw [lastRec_start])
    rw [nvScan, this, Nat.add_sub_cancel' hse]
  · have he : e - start = 0 := Nat.sub_eq_zero_of_le (Nat.le_of_lt (Nat.not_le.mp hse))
    rw [nvScan, he, nvLoop, lastRec_of_le line start e (Nat.le_of_lt (Nat.not_le.mp hse))]

theorem lastRec_spec (line : List Char) (start : Nat) :
    ∀ e m, lastRec line start e = some m →
      ∃ k, start ≤ k ∧ k < e ∧ lineAt line k = ' ' ∧ liveB line start k = true ∧
        m = k - 1 ∧
        ∀ j, k < j → j < e → ¬ (lineAt line j = ' ' ∧ liveB line start j = true) := by
  intro e
  induction e with
  | zero => intro m hm; exact absurd hm (by simp [lastRec])
  | succ q ih =>
    intro m hm
    rw [lastRec] at hm
    by_cases hq : q < start
    · rw [if_pos hq] at hm; exact absurd hm (by simp)
    · rw [if_neg hq] at hm
      by_cases hc : lineAt line q = ' ' ∧ liveB line start q = true
      · rw [if_pos hc] at hm
        have hmq : m = q - 1 := (Option.some.inj hm).symm
        exact ⟨q, Nat.not_lt.mp hq, Nat.lt_succ_self q, hc.1, hc.2, hmq,
          fun j hj1 hj2 _ => by omega⟩
      · rw [if_neg hc] at hm
        obtain ⟨k, h1, h2, h3, h4, h5, h6⟩ := ih m hm
        exact ⟨k, h1, Nat.lt_succ_of_lt h2, h3, h4, h5, fun j hj1 hj2 => by
          by_cases hjq : j = q
          · subst hjq; exact hc
          · exact h6 j hj1 (by omega)⟩

theorem classify_pair_scan (line : List Char) (n v : List Char)
    (h : classifyLine line = LineClass.pair n v) :
    ∃ sp, nvScan line (contentStart line) (contentEnd line) = some sp ∧
      n = goSlice line (contentStart line) sp ∧
      v = goSlice line (sp + 2) (contentEnd line) := by
  unfold classifyLine at h
  split at h
  · exact absurd h (by simp)
  · split at h
    · exact absurd h (by simp)
    · split at h
      · split at h
        · exact absurd h (by simp)
        · exact absurd h (by simp)
      · rename_i hmatch
        split at h
        · rename_i sp hsp
          injection h with h1 h2
          exact ⟨sp, hsp, h1.symm, h2.symm⟩
        · exact absurd h (by simp)

theorem classify_open_span (line : List Char) (n : List Char)
    (h : classifyLine line = LineClass.openScope n) :
    n = goSlice line (contentStart line) (contentEnd line) := by
  unfold classifyLine at h
  split at h
  · exact absurd h (by simp)
  · split at h
    · exact absurd h (by simp)
    · split at h
      · split at h
        · exact absurd h (by simp)
        · injection h with h1; exact h1.symm
      · split at h
        · exact absurd h (by simp)
        · exact absurd h (by simp)

/-- C1: the claim's split rule fails on the code.  On the non-structural
line "a:  b" (two spaces) the last colon-immediately-followed-by-space
sits at index 1, but the scan records split point 2 (the first space,
since the match flag survives a recorded space), so the produced name is
"a:" rather than the claim's content[start:1] = "a". -/
theorem c1_counterexample :
    classifyLine (String.toList "a:  b") =
      LineClass.pair (String.toList "a:") (String.toList "b") ∧
    lastColonSpace (String.toList "a:  b") (contentStart (String.toList "a:  b"))
      (contentEnd (String.toList "a:  b")) = some 1 ∧
    nvScan (String.toList "a:  b") (contentStart (String.toList "a:  b"))
      (contentEnd (String.toList "a:  b")) = some 2 ∧
    String.toList "a:" ≠ goSlice (String.toList "a:  b")
      (contentStart (String.toList "a:  b")) 1 := by decide

/-- C1 (amended): for every line classified as a pair, the split point
`sp` computed by the scan is characterised by: `sp + 1` is the last
index in [content-start, content-end) holding a space while the match
flag is live, where the flag is set by a colon, kept live across
consecutive spaces (each recording a new split point), and cleared by
any other character; name = content[start:sp] and
value = content[sp+2:end] as in the original claim. -/
theorem c1_pair_split_amended (line n v : List Char)
    (h : classifyLine line = LineClass.pair n v) :
    ∃ sp, n = goSlice line (contentStart line) sp ∧
      v = goSlice line (sp + 2) (contentEnd line) ∧
      contentStart line ≤ sp + 1 ∧ sp + 1 < contentEnd line ∧
      lineAt line (sp + 1) = ' ' ∧ liveB line (contentStart line) (sp + 1) = true ∧
      ∀ j, sp + 1 < j → j < contentEnd line →
        ¬ (lineAt line j = ' ' ∧ liveB line (contentStart line) j = true) := by
  obtain ⟨sp, hscan, hn, hv⟩ := classify_pair_scan line n v h
  rw [nvScan_eq_lastRec] at hscan
  obtain ⟨k, h1, h2, h3, h4, h5, h6⟩ :=
    lastRec_spec line (contentStart line) (contentEnd line) sp hscan
  cases k with
  | zero =>
    have : liveB line (contentStart line) 0 = false := rfl
    rw [this] at h4
    exact absurd h4 (by simp)
  | succ q =>
    have hsp : sp = q := by omega
    subst hsp
    exact ⟨sp, hn, hv, by omega, by omega, h3, h4, fun j hj1 hj2 => h6 j (by omega) hj2⟩

/-- C1 witness: on "test: 123" the amended characterisation holds with
name "test" and value "123". -/
theorem c1_pair_split_amended_witness :
    ∃ sp, String.toList "test" =
        goSlice (String.toList "test: 123") (contentStart (String.toList "test: 123")) sp ∧
      String.toList "123" =
        goSlice (String.toList "test: 123") (sp + 2) (contentEnd (String.toList "test: 123")) ∧
      contentStart (String.toList "test: 123") ≤ sp + 1 ∧
      sp + 1 < contentEnd (String.toList "test: 123") ∧
      lineAt (String.toList "test: 123") (sp + 1) = ' ' ∧
      liveB (String.toList "test: 123") (contentStart (String.toList "test: 123"))
        (sp + 1) = true ∧
      ∀ j, sp + 1 < j → j < contentEnd (String.toList "test: 123") →
        ¬ (lineAt (String.toList "test: 123") j = ' ' ∧
          liveB (String.toList "test: 123") (contentStart (String.toList "test: 123")) j
            = true) :=
  c1_pair_split_amended (String.toList "test: 123") (String.toList "test")
    (String.toList "123") (by decide)

/-- C4: open-scope lines take the full content span as the node name —
the pair split is never applied to them — and parsing "test: 123:"
followed by a close line yields a first child named "test: 123" with an
empty child list. -/
theorem c4_open_scope_full_span :
    (∀ line n, classifyLine line = LineClass.openScope n →
      n = goSlice line (contentStart line) (contentEnd line)) ∧
    (ParseConfig (Opts.mk none none) (String.toList "test: 123:\n:\n")).err = none ∧
    (ParseConfig (Opts.mk none none) (String.toList "test: 123:\n:\n")).tree =
      Config.mk (String.toList "__root__") [Config.mk (String.toList "test: 123") []] :=
  ⟨fun line n h => classify_open_span line n h, rfl, rfl⟩

/-- C4 witness: the open-scope line "test: 123:" is named by its full
content span. -/
theorem c4_open_scope_full_span_witness :
    String.toList "test: 123" = goSlice (String.toList "test: 123:")
      (contentStart (String.toList "test: 123:")) (contentEnd (String.toList "test: 123:")) :=
  c4_open_scope_full_span.1 (String.toList "test: 123:") (String.toList "test: 123")
    (by decide)

theorem stripCRrev_length (acc : List Char) :
    (stripCRrev acc).length + (if headIsCR acc then 1 else 0) = acc.length := by
  unfold stripCRrev
  cases hcr : headIsCR acc with
  | true =>
    cases acc with
    | nil => simp [headIsCR] at hcr
    | cons c t => simp
  | false => simp

theorem linesAux_sum (s : List Char) :
    ∀ acc, sumLens (linesAux s acc) + eolAux s acc = acc.length + s.length := by
  induction s with
  | nil => intro acc; simp [linesAux, eolAux, sumLens]
  | cons c rest ih =>
    intro acc
    by_cases hc : c = '\n'
    · rw [linesAux, if_pos hc, eolAux, if_pos hc]
      have hstrip := stripCRrev_length acc
      have hrec : sumLens (if rest.isEmpty then [] else linesAux rest []) +
          (if rest.isEmpty then 0 else eolAux rest []) = rest.length := by
        by_cases hrest : rest.isEmpty
        · have : rest = [] := by cases rest <;> simp_all
          subst this; simp [sumLens]
        · rw [if_neg hrest, if_neg hrest]
          simpa using ih []
      simp only [sumLens, List.length_cons]
      have h21 : (if headIsCR acc = true then 2 else 1) =
          (if headIsCR acc = true then 1 else 0) + 1 := by
        by_cases hcr : headIsCR acc = true <;> simp [hcr]
      omega
    · rw [linesAux, if_neg hc, eolAux, if_neg hc]
      have := ih (c :: acc)
      simp only [List.length_cons] at *
      omega

theorem splitLines_sum (s : List Char) :
    sumLens (splitLines s) + eolBytes s = s.length := by
  unfold splitLines eolBytes
  by_cases hs : s.isEmpty
  · have : s = [] := by cases s <;> simp_all
    subst this; simp [sumLens]
  · rw [if_neg hs, if_neg hs]
    simpa using linesAux_sum s []

theorem mem_stripCRrev {c : Char} {acc : List Char} (h : c ∈ stripCRrev acc) : c ∈ acc := by
  unfold stripCRrev at h
  by_cases hcr : headIsCR acc
  · rw [if_pos hcr] at h
    rw [List.mem_reverse] at h
    cases acc with
    | nil => simp at h
    | cons a t => exact List.mem_cons_of_mem a h
  · rw [if_neg hcr, List.mem_reverse] at h
    exact h

theorem linesAux_no_nl (s : List Char) :
    ∀ acc, (∀ c ∈ acc, c ≠ '\n') →
      ∀ l ∈ linesAux s acc, ∀ c ∈ l, c ≠ '\n' := by
  induction s with
  | nil =>
    intro acc hacc l hl c hc
    rw [linesAux, List.mem_singleton] at hl
    subst hl
    exact hacc c (List.mem_reverse.mp hc)
  | cons c0 rest ih =>
    intro acc hacc l hl c hc
    by_cases hc0 : c0 = '\n'
    · rw [linesAux, if_pos hc0] at hl
      rcases List.mem_cons.mp hl with h | h
      · subst h; exact hacc c (mem_stripCRrev hc)
      · by_cases hrest : rest.isEmpty
        · rw [if_pos hrest] at h; simp at h
        · rw [if_neg hrest] at h
          exact ih [] (by simp) l h c hc
    · rw [linesAux, if_neg hc0] at hl
      refine ih (c0 :: acc) ?_ l hl c hc
      intro d hd
      rcases List.mem_cons.mp hd with h | h
      · subst h; exact hc0
      · exact hacc d h

theorem splitLines_no_nl (s : List Char) :
    ∀ l ∈ splitLines s, ∀ c ∈ l, c ≠ '\n' := by
  unfold splitLines
  by_cases hs : s.isEmpty
  · rw [if_pos hs]; intro l hl; simp at hl
  · rw [if_neg hs]; exact linesAux_no_nl s [] (by simp)

/-- C5: a close-scope line reaching a stack that holds only the root
stops parsing at that line — the remaining input is never consumed —
and returns the tree built so far plus the "too many terminators" error
recorded at that line's number. -/
theorem c5_too_many_terminators (opts : Opts) (line : List Char)
    (rest : List (List Char)) (st : PState) (f : Frame)
    (hclass : classifyLine line = LineClass.close)
    (hstack : st.stack = [f])
    (hsize : checkSize opts (st.size + line.length) st.lineno = none) :
    run opts (line :: rest) st =
      PResult.mk f.toConfig (PState.mk [] (st.size + line.length) (st.lineno + 1))
        (some (Err.tooMany (st.lineno + 1))) := by
  simp only [run, hsize, hclass, hstack]

/-- C5 witness: input ":" followed by further input stops immediately
with the "too many terminators" error at line 1 and the bare root. -/
theorem c5_too_many_terminators_witness :
    run (Opts.mk none none) [String.toList ":", String.toList "x"]
      (PState.mk [rootFrame] 0 0) =
      PResult.mk rootFrame.toConfig (PState.mk [] 1 1) (some (Err.tooMany 1)) :=
  c5_too_many_terminators (Opts.mk none none) (String.toList ":") [String.toList "x"]
    (PState.mk [rootFrame] 0 0) rootFrame (by decide) rfl rfl

/-- C6: at end of input a stack holding only the root yields success
with the finished tree, while a stack holding anything besides the root
yields the "unterminated group" error carrying the final line number,
together with the partial tree. -/
theorem c6_end_of_input (opts : Opts) (st : PState) :
    (∀ f, st.stack = [f] → run opts [] st = PResult.mk f.toConfig st none) ∧
    (2 ≤ st.stack.length →
      run opts [] st =
        PResult.mk (collapseStack st.stack) st (some (Err.unterminated st.lineno))) := by
  constructor
  · intro f hf
    simp [run, hf, collapseStack]
  · intro h2
    simp only [run, if_pos h2]

/-- C6 witness: end of input with one scope still open beyond the root
reports the unterminated-group error at the final line number. -/
theorem c6_end_of_input_witness :
    run (Opts.mk none none) [] (PState.mk [Frame.mk (String.toList "a") [], rootFrame] 3 2) =
      PResult.mk (collapseStack [Frame.mk (String.toList "a") [], rootFrame])
        (PState.mk [Frame.mk (String.toList "a") [], rootFrame] 3 2)
        (some (Err.unterminated 2)) :=
  (c6_end_of_input (Opts.mk none none)
    (PState.mk [Frame.mk (String.toList "a") [], rootFrame] 3 2)).2 (by decide)

/-- C3: the claim's line-number rule fails for size errors.  With size
limit 3 on the single-line input "abcde" the violation is detected
while consuming logical line 1, but the error records line 0 (the line
counter is incremented only after the size check). -/
theorem c3_counterexample :
    (ParseConfig (Opts.mk none (some 3)) (String.toList "abcde")).err =
      some (Err.sizeExceeded 0 3) ∧ (0 : Nat) ≠ 1 :=
  ⟨rfl, by decide⟩

/-- C3 (amended): both limit errors carry the configured limit; the
depth error carries the 1-based number of the offending logical line,
while the size error carries one less — the count of logical lines
fully consumed before the check runs, since the line counter has not
yet been incremented for the line being consumed. -/
theorem c3_error_lineno_amended (opts : Opts) (line : List Char)
    (rest : List (List Char)) (st : PState) :
    (∀ M, opts.sizeLimit = some M → M ≤ st.size + line.length →
      run opts (line :: rest) st =
        PResult.mk (collapseStack st.stack)
          (PState.mk st.stack (st.size + line.length) st.lineno)
          (some (Err.sizeExceeded st.lineno M))) ∧
    (∀ N n, opts.heightLimit = some N →
      checkSize opts (st.size + line.length) st.lineno = none →
      classifyLine line = LineClass.openScope n → N < st.stack.length →
      run opts (line :: rest) st =
        PResult.mk (collapseStack (Frame.mk n [] :: st.stack))
          (PState.mk (Frame.mk n [] :: st.stack) (st.size + line.length) (st.lineno + 1))
          (some (Err.heightExceeded (st.lineno + 1) N))) := by
  constructor
  · intro M hM hle
    have hcs : checkSize opts (st.size + line.length) st.lineno =
        some (Err.sizeExceeded st.lineno M) := by
      simp [checkSize, hM, hle]
    simp only [run, hcs]
  · intro N n hN hsize hclass hlt
    have hch : checkHeight opts ((Frame.mk n [] :: st.stack).length - 1) (st.lineno + 1) =
        some (Err.heightExceeded (st.lineno + 1) N) := by
      simp [checkHeight, hN, List.length_cons, Nat.add_sub_cancel, hlt]
    simp only [run, hsize, hclass, hch]

/-- C3 witness: with size limit 3, "abcde" errors with recorded line 0;
with height limit 1 and one scope already open, the open-scope line
consumed as line 6 errors with recorded line 6. -/
theorem c3_error_lineno_amended_witness :
    run (Opts.mk none (some 3)) [String.toList "abcde"] (PState.mk [rootFrame] 0 0) =
      PResult.mk (collapseStack [rootFrame]) (PState.mk [rootFrame] 5 0)
        (some (Err.sizeExceeded 0 3)) ∧
    run (Opts.mk (some 1) none) [String.toList "b:"]
      (PState.mk [Frame.mk [] [], rootFrame] 0 5) =
      PResult.mk
        (collapseStack (Frame.mk (String.toList "b") [] :: [Frame.mk [] [], rootFrame]))
        (PState.mk (Frame.mk (String.toList "b") [] :: [Frame.mk [] [], rootFrame]) 2 6)
        (some (Err.heightExceeded 6 1)) :=
  ⟨(c3_error_lineno_amended (Opts.mk none (some 3)) (String.toList "abcde") []
      (PState.mk [rootFrame] 0 0)).1 3 rfl (by decide),
   (c3_error_lineno_amended (Opts.mk (some 1) none) (String.toList "b:") []
      (PState.mk [Frame.mk [] [], rootFrame] 0 5)).2 1 (String.toList "b") rfl rfl
      (by decide) (by decide)⟩

theorem collapseStack_cons_cons (f g : Frame) (gs : List Frame) :
    collapseStack (f :: g :: gs) = collapseStack (popFrame f g :: gs) := rfl

theorem frLastName_pop (f g : Frame) (gs : List Frame) :
    frLastName (popFrame f g :: gs) = frLastName (f :: g :: gs) := by
  cases gs <;> rfl

theorem frLastName_push (x : Frame) (fs : List Frame) (h : fs ≠ []) :
    frLastName (x :: fs) = frLastName fs := by
  cases fs with
  | nil => exact absurd rfl h
  | cons g gs => rfl

theorem frLastName_appendTop (c : Config) (fs : List Frame) :
    frLastName (appendTop c fs) = frLastName fs := by
  cases fs with
  | nil => rfl
  | cons f fs' => cases fs' <;> rfl

theorem appendTop_ne_nil (c : Config) (fs : List Frame) (h : fs ≠ []) :
    appendTop c fs ≠ [] := by
  cases fs with
  | nil => exact absurd rfl h
  | cons f fs' => simp [appendTop]

theorem appendTop_length (c : Config) (fs : List Frame) :
    (appendTop c fs).length = fs.length := by
  cases fs <;> simp [appendTop]

theorem collapse_name_cons (fs : List Frame) :
    ∀ f : Frame, (collapseStack (f :: fs)).name = frLastName (f :: fs) := by
  induction fs with
  | nil => intro f; rfl
  | cons g gs ih =>
    intro f
    rw [collapseStack_cons_cons, ih (popFrame f g), frLastName_pop]

theorem collapse_name (fs : List Frame) (h : fs ≠ []) :
    (collapseStack fs).name = frLastName fs := by
  cases fs with
  | nil => exact absurd rfl h
  | cons f fs' => exact collapse_name_cons fs' f

theorem run_tree_name (opts : Opts) :
    ∀ ls st, st.stack ≠ [] → ((run opts ls st).tree).name = frLastName st.stack := by
  intro ls
  induction ls with
  | nil =>
    intro st hne
    rw [run]
    by_cases h2 : 2 ≤ st.stack.length
    · rw [if_pos h2]; exact collapse_name st.stack hne
    · rw [if_neg h2]; exact collapse_name st.stack hne
  | cons line rest ih =>
    intro st hne
    rw [run]
    split
    · exact collapse_name st.stack hne
    · split
      · exact ih _ hne
      · exact ih _ hne
      · split
        · rename_i heq; exact absurd heq hne
        · rename_i f heq
          rw [heq]; rfl
        · rename_i f g gs heq
          rw [ih _ (by simp), frLastName_pop, ← heq]
      · rename_i n
        split
        · rw [collapse_name_cons, frLastName_push _ _ hne]
        · rw [ih _ (by simp), frLastName_push _ _ hne]
      · rename_i n v
        rw [ih _ (appendTop_ne_nil _ _ hne), frLastName_appendTop]
      · rename_i n
        rw [ih _ (appendTop_ne_nil _ _ hne), frLastName_appendTop]

/-- C8: for every input and configuration the returned root node is
named with the reserved root identifier, success or failure, even for
empty input. -/
theorem c8_root_name (opts : Opts) (s : List Char) :
    ((ParseConfig opts s).tree).name = String.toList "__root__" := by
  have h := run_tree_name opts (splitLines s) (PState.mk [rootFrame] 0 0) (by simp)
  exact h

theorem checkHeight_shape (opts : Opts) (h ln : Nat) (e : Err)
    (heq : checkHeight opts h ln = some e) : ∃ lim, e = Err.heightExceeded ln lim := by
  unfold checkHeight at heq
  split at heq
  · rename_i lim _
    split at heq
    · exact ⟨lim, (Option.some.inj heq).symm⟩
    · exact absurd heq (by simp)
  · exact absurd heq (by simp)

theorem checkSize_none_lt (opts : Opts) (N : Nat) (hN : opts.sizeLimit = some N)
    (sz ln : Nat) (h : checkSize opts sz ln = none) : sz < N := by
  by_cases hle : N ≤ sz
  · rw [checkSize, hN] at h
    simp only [hle, if_true] at h
    exact absurd h (by simp)
  · omega

theorem run_no_size_err (opts : Opts) (N : Nat) (hN : opts.sizeLimit = some N) :
    ∀ ls st, st.size + sumLens ls < N →
      ∀ l lim, (run opts ls st).err ≠ some (Err.sizeExceeded l lim) := by
  intro ls
  induction ls with
  | nil =>
    intro st _ l lim
    rw [run]
    by_cases h2 : 2 ≤ st.stack.length
    · rw [if_pos h2]; simp
    · rw [if_neg h2]; simp
  | cons line rest ih =>
    intro st hlt l lim
    have hsz : st.size + line.length < N := by
      simp only [sumLens] at hlt; omega
    have hcs : checkSize opts (st.size + line.length) st.lineno = none := by
      rw [checkSize, hN]
      simp [Nat.not_le.mpr hsz]
    have hnext : st.size + line.length + sumLens rest < N := by
      simp only [sumLens] at hlt; omega
    rw [run]
    split
    · rename_i e heq
      rw [hcs] at heq
      exact absurd heq (by simp)
    · split
      · exact ih _ hnext l lim
      · exact ih _ hnext l lim
      · split
        · simp
        · simp
        · exact ih _ hnext l lim
      · split
        · rename_i n e heq
          obtain ⟨lm, he⟩ := checkHeight_shape _ _ _ _ heq
          subst he
          simp
        · exact ih _ hnext l lim
      · exact ih _ hnext l lim
      · exact ih _ hnext l lim

theorem run_err_none_size (opts : Opts) :
    ∀ ls st, (run opts ls st).err = none →
      (run opts ls st).pstate.size = st.size + sumLens ls := by
  intro ls
  induction ls with
  | nil =>
    intro st h
    rw [run] at h ⊢
    by_cases h2 : 2 ≤ st.stack.length
    · rw [if_pos h2] at h; exact absurd h (by simp)
    · rw [if_neg h2]; simp [sumLens]
  | cons line rest ih =>
    intro st h
    rw [run] at h ⊢
    split at h
    · exact absurd h (by simp)
    · split at h
      · rw [ih _ h]; simp only [sumLens]; omega
      · rw [ih _ h]; simp only [sumLens]; omega
      · split at h
        · exact absurd h (by simp)
        · exact absurd h (by simp)
        · rw [ih _ h]; simp only [sumLens]; omega
      · split at h
        · exact absurd h (by simp)
        · rw [ih _ h]; simp only [sumLens]; omega
      · rw [ih _ h]; simp only [sumLens]; omega
      · rw [ih _ h]; simp only [sumLens]; omega

theorem run_err_none_size_lt (opts : Opts) (N : Nat) (hN : opts.sizeLimit = some N) :
    ∀ ls st, ls ≠ [] → (run opts ls st).err = none → st.size + sumLens ls < N := by
  intro ls
  induction ls with
  | nil => intro st hne; exact absurd rfl hne
  | cons line rest ih =>
    intro st _ h
    rw [run] at h
    split at h <;> rename_i hbr
    · exact absurd h (by simp)
    · have hsz : st.size + line.length < N :=
        checkSize_none_lt opts N hN _ _ hbr
      have step : ∀ st' : PState, st'.size = st.size + line.length →
          (run opts rest st').err = none → st.size + sumLens (line :: rest) < N := by
        intro st' hst' h'
        cases rest with
        | nil => simp only [sumLens]; omega
        | cons r rs =>
          have := ih st' (by simp) h'
          rw [hst'] at this
          simp only [sumLens] at this ⊢
          omega
      split at h
      · exact step _ rfl h
      · exact step _ rfl h
      · split at h
        · exact absurd h (by simp)
        · exact absurd h (by simp)
        · exact step _ rfl h
      · split at h
        · exact absurd h (by simp)
        · exact step _ rfl h
      · exact step _ rfl h
      · exact step _ rfl h

/-- C7: with a configured size limit N, an input whose total logical
line bytes stay strictly under N never produces a size error, and a
parse that succeeds consumed all its lines with the cumulative count
strictly under N at every check. -/
theorem c7_size_limit (s : List Char) (hl : Option Nat) (N : Nat) (hN : 0 < N) :
    (sumLens (splitLines s) < N →
      ∀ l lim, (ParseConfig (Opts.mk hl (some N)) s).err ≠ some (Err.sizeExceeded l lim)) ∧
    ((ParseConfig (Opts.mk hl (some N)) s).err = none → sumLens (splitLines s) < N) := by
  constructor
  · intro hlt l lim
    exact run_no_size_err (Opts.mk hl (some N)) N rfl (splitLines s)
      (PState.mk [rootFrame] 0 0) (by simpa using hlt) l lim
  · intro h
    cases hsp : splitLines s with
    | nil => simpa [hsp, sumLens] using hN
    | cons a as =>
      have h' : (run (Opts.mk hl (some N)) (a :: as) (PState.mk [rootFrame] 0 0)).err
          = none := by
        rw [← hsp]; exact h
      have := run_err_none_size_lt (Opts.mk hl (some N)) N rfl (a :: as)
        (PState.mk [rootFrame] 0 0) (by simp) h'
      simpa using this

/-- C7 witness: input "ab" with size limit 5 stays under the limit and
yields no size error. -/
theorem c7_size_limit_witness :
    sumLens (splitLines (String.toList "ab")) < 5 ∧
    ∀ l lim, (ParseConfig (Opts.mk none (some 5)) (String.toList "ab")).err ≠
      some (Err.sizeExceeded l lim) :=
  ⟨by decide, (c7_size_limit (String.toList "ab") none 5 (by decide)).1 (by decide)⟩

/-- C10: logical lines contain no newline bytes, the line-terminator
bytes are exactly the difference between stream length and the summed
line lengths, and on a successful parse the final cumulative size
counter equals the stream length minus all terminator bytes. -/
theorem c10_size_counts_no_newlines (s : List Char) :
    sumLens (splitLines s) + eolBytes s = s.length ∧
    (∀ l ∈ splitLines s, ∀ c ∈ l, c ≠ '\n') ∧
    ∀ opts, (ParseConfig opts s).err = none →
      (ParseConfig opts s).pstate.size = s.length - eolBytes s := by
  refine ⟨splitLines_sum s, splitLines_no_nl s, ?_⟩
  intro opts h
  have h1 := run_err_none_size opts (splitLines s) (PState.mk [rootFrame] 0 0) h
  have h2 := splitLines_sum s
  have h3 : (ParseConfig opts s).pstate.size = 0 + sumLens (splitLines s) := h1
  rw [h3]
  omega

/-- C10 witness: parsing "a\r\nb\n" succeeds with final size 2, the
stream length 5 minus its 3 terminator bytes. -/
theorem c10_size_counts_no_newlines_witness :
    (ParseConfig (Opts.mk none none) (String.toList "a\r\nb\n")).pstate.size =
      (String.toList "a\r\nb\n").length - eolBytes (String.toList "a\r\nb\n") :=
  (c10_size_counts_no_newlines (String.toList "a\r\nb\n")).2.2 (Opts.mk none none) (by decide)

theorem checkSize_shape (opts : Opts) (sz ln : Nat) (e : Err)
    (heq : checkSize opts sz ln = some e) : ∃ lim, e = Err.sizeExceeded ln lim := by
  unfold checkSize at heq
  split at heq
  · rename_i lim _
    split at heq
    · exact ⟨lim, (Option.some.inj heq).symm⟩
    · exact absurd heq (by simp)
  · exact absurd heq (by simp)

theorem checkHeight_lt (opts : Opts) (ht ln : Nat) (e : Err)
    (heq : checkHeight opts ht ln = some e) :
    ∃ lm, opts.heightLimit = some lm ∧ lm < ht ∧ e = Err.heightExceeded ln lm := by
  unfold checkHeight at heq
  split at heq
  · rename_i lm hlim
    split at heq
    · rename_i hlt
      exact ⟨lm, hlim, hlt, (Option.some.inj heq).symm⟩
    · exact absurd heq (by simp)
  · exact absurd heq (by simp)

theorem heightC_pos (c : Config) : 1 ≤ heightC c := by
  cases c with
  | mk n cs => rw [heightC]; omega

theorem heightL_concat (cs : List Config) (c : Config) :
    heightC c ≤ heightL (cs ++ [c]) := by
  induction cs with
  | nil => rw [List.nil_append, heightL, heightL]; exact Nat.le_max_left _ _
  | cons x xs ih =>
    rw [List.cons_append, heightL]
    exact le_trans ih (Nat.le_max_right _ _)

theorem collapse_height (fs : List Frame) :
    ∀ f : Frame, heightC f.toConfig + fs.length ≤ heightC (collapseStack (f :: fs)) := by
  induction fs with
  | nil => intro f; simp [collapseStack]
  | cons g gs ih =>
    intro f
    rw [collapseStack_cons_cons]
    have h1 := ih (popFrame f g)
    have h2 : heightC f.toConfig + 1 ≤ heightC (popFrame f g).toConfig := by
      have hpf : (popFrame f g).toConfig = Config.mk g.name (g.value ++ [f.toConfig]) := rfl
      rw [hpf, heightC]
      have := heightL_concat g.value f.toConfig
      omega
    simp only [List.length_cons]
    omega

theorem collapse_height_len (fs : List Frame) (h : fs ≠ []) :
    fs.length ≤ heightC (collapseStack fs) := by
  cases fs with
  | nil => exact absurd rfl h
  | cons f t =>
    have h1 := collapse_height t f
    have h2 := heightC_pos f.toConfig
    simp only [List.length_cons]
    omega

theorem run_height_err_tall (opts : Opts) :
    ∀ ls st l lim, (run opts ls st).err = some (Err.heightExceeded l lim) →
      lim + 2 ≤ heightC (run opts ls st).tree := by
  intro ls
  induction ls with
  | nil =>
    intro st l lim h
    rw [run] at h ⊢
    by_cases h2 : 2 ≤ st.stack.length
    · rw [if_pos h2] at h; exact absurd h (by simp)
    · rw [if_neg h2] at h; exact absurd h (by simp)
  | cons line rest ih =>
    intro st l lim h
    rw [run] at h ⊢
    split at h
    · rename_i e heq
      obtain ⟨lm, he⟩ := checkSize_shape _ _ _ _ heq
      subst he
      exact absurd h (by simp)
    · split at h
      · exact ih _ l lim h
      · exact ih _ l lim h
      · split at h
        · exact absurd h (by simp)
        · exact absurd h (by simp)
        · exact ih _ l lim h
      · rename_i n hcl
        split at h
        · rename_i e heq
          obtain ⟨lm, _, hlt, he⟩ := checkHeight_lt _ _ _ _ heq
          subst he
          have hinj : lim = lm := by
            have := Option.some.inj h
            cases this
            rfl
          subst hinj
          have hlen := collapse_height_len (Frame.mk n [] :: st.stack) (by simp)
          simp only [List.length_cons] at hlt hlen
          simp only [Nat.add_sub_cancel] at hlt
          show lim + 2 ≤ heightC (collapseStack (Frame.mk n [] :: st.stack))
          omega
        · exact ih _ l lim h
      · exact ih _ l lim h
      · exact ih _ l lim h

/-- C9: when parsing stops with a depth-exceeded error the node opened
by the offending line was already appended to its parent, so the
returned partial tree has a chain strictly longer than the limit allows
— and concretely, with limit 1, input "a:" then "b:" returns the tree
root/a/b in which the offending node "b" is present. -/
theorem c9_depth_error_node_present :
    (∀ (opts : Opts) (ls : List (List Char)) (l lim : Nat),
      (parseLines opts ls).err = some (Err.heightExceeded l lim) →
      lim + 2 ≤ heightC (parseLines opts ls).tree) ∧
    (parseLines (Opts.mk (some 1) none) [String.toList "a:", String.toList "b:"]).tree =
      Config.mk (String.toList "__root__")
        [Config.mk (String.toList "a") [Config.mk (String.toList "b") []]] :=
  ⟨fun opts ls l lim h => run_height_err_tall opts ls (PState.mk [rootFrame] 0 0) l lim h,
   rfl⟩

/-- C9 witness: with limit 1 the two-line input "a:", "b:" fails with a
depth error and its returned tree indeed has height at least 3. -/
theorem c9_depth_error_node_present_witness :
    1 + 2 ≤ heightC
      (parseLines (Opts.mk (some 1) none) [String.toList "a:", String.toList "b:"]).tree :=
  c9_depth_error_node_present.1 (Opts.mk (some 1) none)
    [String.toList "a:", String.toList "b:"] 2 1 rfl

theorem nestLen_ge (ls : List (List Char)) (d : Nat) : d ≤ nestLen ls d := by
  cases ls with
  | nil => exact Nat.le_refl d
  | cons l rest => rw [nestLen]; exact Nat.le_max_left _ _

theorem run_height_iff (N : Nat) :
    ∀ ls st, st.stack ≠ [] → st.stack.length ≤ N + 1 →
      (isHeightErr (run (Opts.mk (some N) none) ls st).err = true ↔
        N + 1 < nestLen ls st.stack.length) := by
  intro ls
  induction ls with
  | nil =>
    intro st hne hle
    rw [run, nestLen]
    constructor
    · intro h
      by_cases h2 : 2 ≤ st.stack.length
      · rw [if_pos h2] at h; simp [isHeightErr] at h
      · rw [if_neg h2] at h; simp [isHeightErr] at h
    · intro h; omega
  | cons line rest ih =>
    intro st hne hle
    obtain ⟨stk, sz, ln⟩ := st
    simp only [PState.stack] at hne hle
    rw [run, nestLen]
    have hcs : checkSize (Opts.mk (some N) none) (sz + line.length) ln = none := rfl
    have hnd : ¬ (N + 1 < stk.length) := by omega
    cases hcl : classifyLine line with
    | blank =>
      simp only [PState.stack, PState.size, PState.lineno, hcs, hcl]
      rw [ih (PState.mk stk (sz + line.length) (ln + 1)) hne hle, lt_max_iff]
      constructor
      · intro h; exact Or.inr h
      · rintro (h | h)
        · exact absurd h hnd
        · exact h
    | comment =>
      simp only [PState.stack, PState.size, PState.lineno, hcs, hcl]
      rw [ih (PState.mk stk (sz + line.length) (ln + 1)) hne hle, lt_max_iff]
      constructor
      · intro h; exact Or.inr h
      · rintro (h | h)
        · exact absurd h hnd
        · exact h
    | close =>
      cases stk with
      | nil => exact absurd rfl hne
      | cons f fs =>
        cases fs with
        | nil =>
          simp only [PState.stack, PState.size, PState.lineno, hcs, hcl]
          simp [isHeightErr]
        | cons g gs =>
          have hlen2 : ¬ ((f :: g :: gs).length ≤ 1) := by simp
          simp only [PState.stack, PState.size, PState.lineno, hcs, hcl, if_neg hlen2]
          have hlep : (popFrame f g :: gs).length ≤ N + 1 := by
            simp only [List.length_cons] at hle ⊢
            omega
          rw [ih (PState.mk (popFrame f g :: gs) (sz + line.length) (ln + 1))
            (by simp) hlep, lt_max_iff]
          have hlen3 : (f :: g :: gs).length - 1 = (popFrame f g :: gs).length := by simp
          rw [hlen3]
          constructor
          · intro h; exact Or.inr h
          · rintro (h | h)
            · exact absurd h hnd
            · exact h
    | openScope n =>
      simp only [PState.stack, PState.size, PState.lineno, hcs, hcl]
      have hch : checkHeight (Opts.mk (some N) none)
          ((Frame.mk n [] :: stk).length - 1) (ln + 1) =
          (if N < stk.length then some (Err.heightExceeded (ln + 1) N) else none) := by
        simp [checkHeight]
      rw [hch]
      by_cases hNd : N < stk.length
      · rw [if_pos hNd]
        have h1 := nestLen_ge rest (stk.length + 1)
        rw [lt_max_iff]
        constructor
        · intro _
          right
          omega
        · intro _
          rfl
      · rw [if_neg hNd]
        have hlep : (Frame.mk n [] :: stk).length ≤ N + 1 := by
          simp only [List.length_cons]
          omega
        rw [ih (PState.mk (Frame.mk n [] :: stk) (sz + line.length) (ln + 1))
          (by simp) hlep, lt_max_iff]
        simp only [PState.stack, List.length_cons]
        constructor
        · intro h; exact Or.inr h
        · rintro (h | h)
          · exact absurd h hnd
          · exact h
    | pair n v =>
      simp only [PState.stack, PState.size, PState.lineno, hcs, hcl]
      have hne' := appendTop_ne_nil (Config.mk n [Config.mk v []]) stk hne
      have hlep : (appendTop (Config.mk n [Config.mk v []]) stk).length ≤ N + 1 := by
        rw [appendTop_length]; exact hle
      rw [ih (PState.mk (appendTop (Config.mk n [Config.mk v []]) stk)
        (sz + line.length) (ln + 1)) hne' hlep]
      simp only [PState.stack, appendTop_length]
      rw [lt_max_iff]
      constructor
      · intro h; exact Or.inr h
      · rintro (h | h)
        · exact absurd h hnd
        · exact h
    | leaf n =>
      simp only [PState.stack, PState.size, PState.lineno, hcs, hcl]
      have hne' := appendTop_ne_nil (Config.mk n []) stk hne
      have hlep : (appendTop (Config.mk n []) stk).length ≤ N + 1 := by
        rw [appendTop_length]; exact hle
      rw [ih (PState.mk (appendTop (Config.mk n []) stk)
        (sz + line.length) (ln + 1)) hne' hlep]
      simp only [PState.stack, appendTop_length]
      rw [lt_max_iff]
      constructor
      · intro h; exact Or.inr h
      · rintro (h | h)
        · exact absurd h hnd
        · exact h

/-- C2: with height limit N configured (and no size limit) the parse
reports a depth-exceeded error exactly when the input nests beyond
depth N — that is, when the open-node stack of the limit-free run would
grow past length N + 1; nesting to exactly depth N is accepted. -/
theorem c2_height_limit_boundary (N : Nat) (ls : List (List Char)) :
    isHeightErr (parseLines (Opts.mk (some N) none) ls).err = true ↔
      N + 1 < nestLen ls 1 := by
  have h := run_height_iff N ls (PState.mk [rootFrame] 0 0) (by simp) (by simp)
  simpa using h

example :
    isHeightErr ((parseLines (Opts.mk (some 3) none)
      ((["a:", "b:", "c:", "d:", ":", ":", ":", ":"].map String.toList))).err) = true := by
  decide

example :
    isHeightErr ((parseLines (Opts.mk (some 4) none)
      ((["a:", "b:", "c:", "d:", ":", ":", ":", ":"].map String.toList))).err) = false := by
  decide
